import Mathlib

set_option maxRecDepth 10000

/-!
# Verification of the `doopa` BAM deduplicator (`src/doopa.cc`)

This file is a shallow embedding of the deduplication engine of
`doopa.cc` together with proofs about it.  Alignment records are
modelled by the structure `BamRec`; the two passes of `dedup_bam`
are modelled as explicit folds over a `List BamRec`; the
`std::unordered_map` keyed by `chrposlen_t` with the SHA-256 based
`key_hash` / `key_equal_to` policy is modelled as an association
list looked up with the same equality predicate.  The SHA-256
digest itself is implemented bit-faithfully over `Nat`, so every
definition here is executable.

External `htslib` primitives used by the code (`bam_endpos`,
`bam_cigar_opchr`, ...) are modelled from their documented
semantics: a CIGAR is a list of `(length, operation char)` pairs,
`bam_endpos` is the leftmost position plus the number of
reference-consuming bases (`M`, `D`, `N`, `=`, `X`), or position
plus one for an unmapped record or an empty CIGAR.
-/

/-- Model of a BAM alignment record (`bam1_t` / `bam1_core_t`): the
fields `dedup_bam` and its helpers actually read.  `cigar` is the
stored run-length encoded CIGAR, `mc` the optional textual "MC"
auxiliary tag, `qual` the per-base quality bytes. -/
structure BamRec where
  tid : Int
  pos : Int
  flag : Nat
  cigar : List (Nat × Char)
  mtid : Int
  mpos : Int
  mc : Option (List Char)
  qual : List Nat
  deriving DecidableEq, Repr

instance : Inhabited BamRec :=
  ⟨⟨-1, 0, 0, [], -1, 0, none, []⟩⟩

/-- Flag `BAM_FUNMAP`. -/
def BAM_FUNMAP : Nat := 4

/-- Flag `BAM_FSECONDARY`. -/
def BAM_FSECONDARY : Nat := 256

/-- Flag `BAM_FQCFAIL`. -/
def BAM_FQCFAIL : Nat := 512

/-- Flag `BAM_FSUPPLEMENTARY`. -/
def BAM_FSUPPLEMENTARY : Nat := 2048

/-- The flag mask of `dedup_bam` line 379:
`BAM_FSECONDARY | BAM_FSUPPLEMENTARY | BAM_FUNMAP | BAM_FQCFAIL`. -/
def flagMask : Nat := BAM_FSECONDARY ||| BAM_FSUPPLEMENTARY ||| BAM_FUNMAP ||| BAM_FQCFAIL

/-- Sum of the leading soft/hard-clip run lengths: the loop of
`unclipped_start` (doopa.cc lines 99-107), which walks the CIGAR from
the front and breaks at the first non-clip operation. -/
def startClips : List (Nat × Char) → Nat
  | [] => 0
  | (len, c) :: rest => if c = 'S' ∨ c = 'H' then len + startClips rest else 0

/-- Sum of the trailing soft/hard-clip run lengths: the loop of
`unclipped_end` (doopa.cc lines 123-131), which walks the CIGAR from
the back and breaks at the first non-clip operation. -/
def endClips (cig : List (Nat × Char)) : Nat :=
  startClips cig.reverse

/-- Model of `bam_cigar2rlen` (htslib): number of reference bases consumed by
the CIGAR (`M`, `D`, `N`, `=`, `X`). -/
def bam_cigar2rlen (cig : List (Nat × Char)) : Nat :=
  (cig.map (fun p => if p.2 = 'M' ∨ p.2 = 'D' ∨ p.2 = 'N' ∨ p.2 = '=' ∨ p.2 = 'X' then p.1 else 0)).sum

/-- Model of `bam_endpos` (htslib): for a mapped record with a nonempty CIGAR,
position plus reference length; otherwise position + 1. -/
def bam_endpos (b : BamRec) : Int :=
  if b.flag &&& BAM_FUNMAP = 0 ∧ b.cigar ≠ [] then b.pos + bam_cigar2rlen b.cigar
  else b.pos + 1

/-- Function `unclipped_start` (doopa.cc lines 94-110): `pos - clipped + 1`. -/
def unclipped_start (b : BamRec) : Int :=
  b.pos - startClips b.cigar + 1

/-- Function `unclipped_end` (doopa.cc lines 113-134): `bam_endpos + clipped`. -/
def unclipped_end (b : BamRec) : Int :=
  bam_endpos b + endClips b.cigar

/-- Value of `strtol` on a run of decimal digits. -/
def digitsVal (ds : List Char) : Nat :=
  ds.foldl (fun a c => a * 10 + (c.toNat - 48)) 0

/-- The clip-scanning loop of `unclipped_other_start` (doopa.cc lines
137-159) over the textual mate CIGAR: accumulate leading soft/hard
clip lengths, stop at the first non-clip operation, at `*`, or at the
end of the string.  The first argument is structural fuel: every loop
iteration consumes at least one character, so the wrapper's
`length + 1` is never exhausted. -/
def uosGoF : Nat → Nat → List Char → Nat
  | 0, clipped, _ => clipped
  | fuel + 1, clipped, cs =>
    match cs with
    | [] => clipped
    | c :: _ =>
      if c = '*' then clipped
      else
        match cs.dropWhile Char.isDigit with
        | [] => clipped
        | op :: rest2 =>
          if op = 'S' ∨ op = 'H' then
            uosGoF fuel
              (clipped +
                (if cs.takeWhile Char.isDigit = [] then 1
                 else digitsVal (cs.takeWhile Char.isDigit)))
              rest2
          else clipped

/-- Function `unclipped_other_start` (doopa.cc lines 137-159). -/
def unclipped_other_start (op : Int) (cigar : List Char) : Int :=
  op - uosGoF (cigar.length + 1) 0 cigar + 1

/-- The reference-length loop of `unclipped_other_end` (doopa.cc lines
162-196): reference-consuming operations advance `refpos`, clips count
only after the first reference-consuming operation, other operations
are skipped, `*` or end of string stops the scan.  Structural fuel as
in `uosGoF`. -/
def uoeGoF : Nat → Bool → Nat → List Char → Nat
  | 0, _, refpos, _ => refpos
  | fuel + 1, skip, refpos, cs =>
    match cs with
    | [] => refpos
    | c :: _ =>
      if c = '*' then refpos
      else
        match cs.dropWhile Char.isDigit with
        | [] => refpos
        | op :: rest2 =>
          if op = 'M' ∨ op = 'D' ∨ op = 'N' ∨ op = '=' ∨ op = 'X' then
            uoeGoF fuel false
              (refpos +
                (if cs.takeWhile Char.isDigit = [] then 1
                 else digitsVal (cs.takeWhile Char.isDigit)))
              rest2
          else if op = 'S' ∨ op = 'H' then
            uoeGoF fuel skip
              (if skip then refpos
               else refpos +
                (if cs.takeWhile Char.isDigit = [] then 1
                 else digitsVal (cs.takeWhile Char.isDigit)))
              rest2
          else uoeGoF fuel skip refpos rest2

/-- Function `unclipped_other_end` (doopa.cc lines 162-196). -/
def unclipped_other_end (op : Int) (cigar : List Char) : Int :=
  op + uoeGoF (cigar.length + 1) true 0 cigar

/-- The packed two-word signature `chrposlen_t`. -/
structure chrposlen_t where
  lo : Nat
  hi : Nat
  deriving DecidableEq, Repr

/-- C conversion `int32_t → uint64_t` (two's complement). -/
def toU64 (i : Int) : Nat :=
  (i % (2 ^ 64 : Nat)).toNat

/-- Macro `PACK_CHRPOSLEN` (doopa.cc lines 45-49). -/
def PACK_CHRPOSLEN (chr pos len : Int) : Nat :=
  ((toU64 chr &&& 0x1ff) <<< 55) ||| ((toU64 pos &&& 0x7fffffff) <<< 24) ||| (toU64 len &&& 0xffffff)

/-- The six signature fields `(chr1, start1, len1, chr2, start2, len2)`
computed by `make_key` (doopa.cc lines 200-228) before packing. -/
def make_key_fields (b : BamRec) : Int × Int × Int × Int × Int × Int :=
  if 0 ≤ b.mtid then
    match b.mc with
    | some cig =>
      (b.tid, unclipped_start b, unclipped_end b - unclipped_start b, b.mtid,
       unclipped_other_start b.mpos cig,
       |unclipped_other_end b.mpos cig - unclipped_other_start b.mpos cig|)
    | none =>
      (b.tid, b.pos, bam_endpos b - b.pos, b.mtid, b.mpos, bam_endpos b - b.pos)
  else
    (b.tid, unclipped_start b, unclipped_end b - unclipped_start b, 0, 0, 0)

/-- Function `make_key` (doopa.cc lines 200-228): pack the six fields into the
two 64-bit words of a `chrposlen_t`. -/
def make_key (b : BamRec) : chrposlen_t :=
  match make_key_fields b with
  | (chr1, start1, len1, chr2, start2, len2) =>
    ⟨PACK_CHRPOSLEN chr1 start1 len1, PACK_CHRPOSLEN chr2 start2 len2⟩

/-- Function `get_qualsum` (doopa.cc lines 240-257): the sum of the per-base
quality values of a record. -/
def qsum (b : BamRec) : Nat :=
  b.qual.sum

/-! ## SHA-256 over `Nat`, as used by `key_hash` -/

/-- Truncate to 32 bits. -/
def m32 (x : Nat) : Nat := x &&& 0xffffffff

/-- 32-bit addition. -/
def add32 (a b : Nat) : Nat := (a + b) % 4294967296

/-- 32-bit right rotation. -/
def rot32r (n x : Nat) : Nat := m32 ((x >>> n) ||| (x <<< (32 - n)))

/-- SHA-256 `Ch`. -/
def shaCh (x y z : Nat) : Nat := (x &&& y) ^^^ ((x ^^^ 0xffffffff) &&& z)

/-- SHA-256 `Maj`. -/
def shaMaj (x y z : Nat) : Nat := (x &&& y) ^^^ (x &&& z) ^^^ (y &&& z)

/-- SHA-256 `Σ₀`. -/
def bigSig0 (x : Nat) : Nat := rot32r 2 x ^^^ rot32r 13 x ^^^ rot32r 22 x

/-- SHA-256 `Σ₁`. -/
def bigSig1 (x : Nat) : Nat := rot32r 6 x ^^^ rot32r 11 x ^^^ rot32r 25 x

/-- SHA-256 `σ₀`. -/
def smallSig0 (x : Nat) : Nat := rot32r 7 x ^^^ rot32r 18 x ^^^ (x >>> 3)

/-- SHA-256 `σ₁`. -/
def smallSig1 (x : Nat) : Nat := rot32r 17 x ^^^ rot32r 19 x ^^^ (x >>> 10)

/-- SHA-256 round constants. -/
def shaK : List Nat :=
  [1116352408, 1899447441, 3049323471, 3921009573, 961987163, 1508970993,
   2453635748, 2870763221, 3624381080, 310598401, 607225278, 1426881987,
   1925078388, 2162078206, 2614888103, 3248222580, 3835390401, 4022224774,
   264347078, 604807628, 770255983, 1249150122, 1555081692, 1996064986,
   2554220882, 2821834349, 2952996808, 3210313671, 3336571891, 3584528711,
   113926993, 338241895, 666307205, 773529912, 1294757372, 1396182291,
   1695183700, 1986661051, 2177026350, 2456956037, 2730485921, 2820302411,
   3259730800, 3345764771, 3516065817, 3600352804, 4094571909, 275423344,
   430227734, 506948616, 659060556, 883997877, 958139571, 1322822218,
   1537002063, 1747873779, 1955562222, 2024104815, 2227730452, 2361852424,
   2428436474, 2756734187, 3204031479, 3329325298]

/-- SHA-256 initial hash value. -/
def shaH0 : List Nat :=
  [1779033703, 3144134277, 1013904242, 2773480762,
   1359893119, 2600822924, 528734635, 1541459225]

/-- Big-endian 32-bit words from a list of bytes. -/
def wordsOfBytes : List Nat → List Nat
  | b0 :: b1 :: b2 :: b3 :: rest => ((b0 <<< 24) ||| (b1 <<< 16) ||| (b2 <<< 8) ||| b3) :: wordsOfBytes rest
  | _ => []

/-- Extend the 16 message-schedule words to 64. -/
def wExtend (w : List Nat) : List Nat :=
  (List.range 48).foldl
    (fun acc _ =>
      acc ++ [add32
        (add32 (smallSig1 (acc.getD (acc.length - 2) 0)) (acc.getD (acc.length - 7) 0))
        (add32 (smallSig0 (acc.getD (acc.length - 15) 0)) (acc.getD (acc.length - 16) 0))])
    w

/-- One SHA-256 compression round; state `(a,b,c,d,e,f,g,h)`, input
`K[t] + W[t]` (mod 2³²). -/
def shaRound (st : Nat × Nat × Nat × Nat × Nat × Nat × Nat × Nat) (kw : Nat) :
    Nat × Nat × Nat × Nat × Nat × Nat × Nat × Nat :=
  match st with
  | (a, b, c, d, e, f, g, h) =>
    let t1 := add32 (add32 (add32 h (bigSig1 e)) (shaCh e f g)) kw
    let t2 := add32 (bigSig0 a) (shaMaj a b c)
    (add32 t1 t2, a, b, c, add32 d t1, e, f, g)

/-- Big-endian bytes of a 32-bit word. -/
def beBytes4 (x : Nat) : List Nat :=
  [(x >>> 24) &&& 255, (x >>> 16) &&& 255, (x >>> 8) &&& 255, x &&& 255]

/-- Big-endian bytes of a 64-bit word. -/
def beBytes8 (x : Nat) : List Nat :=
  beBytes4 (x >>> 32) ++ beBytes4 x

/-- Little-endian bytes of a 64-bit word. -/
def leBytes8 (x : Nat) : List Nat :=
  [x &&& 255, (x >>> 8) &&& 255, (x >>> 16) &&& 255, (x >>> 24) &&& 255,
   (x >>> 32) &&& 255, (x >>> 40) &&& 255, (x >>> 48) &&& 255, (x >>> 56) &&& 255]

/-- SHA-256 of a message of at most 55 bytes (a single padded block),
returned as the 32 digest bytes. -/
def sha256Short (msg : List Nat) : List Nat :=
  let block := msg ++ [0x80] ++ List.replicate (55 - msg.length) 0 ++ beBytes8 (msg.length * 8)
  let w := wExtend (wordsOfBytes block)
  let kw := List.zipWith add32 shaK w
  match kw.foldl shaRound (1779033703, 3144134277, 1013904242, 2773480762,
                           1359893119, 2600822924, 528734635, 1541459225) with
  | (a, b, c, d, e, f, g, h) =>
    beBytes4 (add32 a 1779033703) ++ beBytes4 (add32 b 3144134277) ++
    beBytes4 (add32 c 1013904242) ++ beBytes4 (add32 d 2773480762) ++
    beBytes4 (add32 e 1359893119) ++ beBytes4 (add32 f 2600822924) ++
    beBytes4 (add32 g 528734635) ++ beBytes4 (add32 h 1541459225)

/-- Function `key_hash` (doopa.cc lines 70-79): SHA-256 of the 16 bytes of the
key (both words little-endian, as laid out in memory on x86-64), then
the first 8 digest bytes reinterpreted as a little-endian `uint64_t`. -/
def key_hash (k : chrposlen_t) : Nat :=
  let sha := sha256Short (leBytes8 k.lo ++ leBytes8 k.hi)
  (List.range 8).foldl (fun a i => a + (sha.getD i 0) <<< (8 * i)) 0

/-- Function `key_equal_to` (doopa.cc lines 230-232): equality of hashes. -/
def key_equal_to (k1 k2 : chrposlen_t) : Bool :=
  key_hash k1 == key_hash k2

attribute [irreducible] key_hash

/-! ## The duplicate table and the two-pass engine -/

/-- A duplicate-table entry `(winner ordinal, best quality-sum)`:
the `std::pair<uint64_t, uint64_t>` value of `doopa_t`. -/
abbrev Entry := Nat × Nat

/-- The duplicate table `doopa_t`: an `std::unordered_map` whose
equality predicate is `key_equal_to`, modelled as an association
list searched with that predicate. -/
abbrev Table := List (chrposlen_t × Entry)

/-- Find the entry stored for `k` (first entry whose stored key is
`key_equal_to`-equal to `k`). -/
def lookupT (T : Table) (k : chrposlen_t) : Option Entry :=
  (T.find? (fun p => key_equal_to p.1 k)).map Prod.snd

/-- Assignment `mp[key] = e` when the key is already present: assign `e` to the
entry (or entries) whose stored key is equal to `k`. -/
def updateT (T : Table) (k : chrposlen_t) (e : Entry) : Table :=
  T.map (fun p => if key_equal_to p.1 k then (p.1, e) else p)

/-- Lookup `mp[key]` on an absent key followed by assignment, or on lookup:
if present return the entry, else insert the default `(0, 0)` and
return it. -/
def getOrInsert (T : Table) (k : chrposlen_t) : Table × Entry :=
  match lookupT T k with
  | some e => (T, e)
  | none => (T ++ [(k, (0, 0))], (0, 0))

/-- A record processed by the table bookkeeping of both passes'
mapped path in pass 1: reference id is valid and none of the
secondary/supplementary/unmapped/QC-fail bits is set
(doopa.cc lines 375-381). -/
def isClean (r : BamRec) : Bool :=
  !(decide (r.tid < 0)) && (r.flag &&& flagMask == 0)

/-- Pass 1 of `dedup_bam` (doopa.cc lines 373-407), restricted to the
duplicate-table state: `n` is `total_reads` (the 0-based ordinal of
the next record), the result is the final table together with
`duplicate_reads`. -/
def pass1Go (n : Nat) (T : Table) (d : Nat) : List BamRec → Table × Nat
  | [] => (T, d)
  | r :: rs =>
    if r.tid < 0 then pass1Go (n + 1) T d rs
    else if r.flag &&& flagMask ≠ 0 then pass1Go (n + 1) T d rs
    else
      match lookupT T (make_key r) with
      | some e =>
        if qsum r > e.2 then pass1Go (n + 1) (updateT T (make_key r) (n, qsum r)) (d + 1) rs
        else pass1Go (n + 1) T (d + 1) rs
      | none => pass1Go (n + 1) (T ++ [(make_key r, (n, qsum r))]) d rs

/-- The duplicate table after pass 1. -/
def pass1T (s : List BamRec) : Table :=
  (pass1Go 0 [] 0 s).1

/-- Counter `duplicate_reads` after pass 1. -/
def dupCount (s : List BamRec) : Nat :=
  (pass1Go 0 [] 0 s).2

/-- Pass 2 of `dedup_bam` (doopa.cc lines 427-445): records with
`tid < 0` are written as is; any other record is looked up (with
`operator[]`, which inserts a default entry when the key is absent)
and written iff its quality-sum equals the stored quality-sum and the
stored ordinal equals the current `total_reads`.  Returns the final
table and the emitted records in order. -/
def pass2Go (n : Nat) (T : Table) : List BamRec → Table × List BamRec
  | [] => (T, [])
  | r :: rs =>
    if r.tid < 0 then
      ((pass2Go (n + 1) T rs).1, r :: (pass2Go (n + 1) T rs).2)
    else
      if qsum r = (getOrInsert T (make_key r)).2.2 ∧ (getOrInsert T (make_key r)).2.1 = n then
        ((pass2Go (n + 1) (getOrInsert T (make_key r)).1 rs).1,
         r :: (pass2Go (n + 1) (getOrInsert T (make_key r)).1 rs).2)
      else pass2Go (n + 1) (getOrInsert T (make_key r)).1 rs

/-- The record stream emitted by one run of the two-pass engine. -/
def dedup (s : List BamRec) : List BamRec :=
  (pass2Go 0 (pass1T s) s).2

/-! ## Derived forms of the pass-2 decision -/

/-- The pass-2 emission decision for a record `r` at ordinal `n`,
given the table `T` produced by pass 1: records with `tid < 0` are
always emitted; otherwise the looked-up entry (defaulting to `(0,0)`,
as `operator[]` inserts) must match quality-sum and ordinal. -/
def dec2 (T : Table) (n : Nat) (r : BamRec) : Bool :=
  if r.tid < 0 then true
  else
    (qsum r == ((lookupT T (make_key r)).getD (0, 0)).2) &&
    (((lookupT T (make_key r)).getD (0, 0)).1 == n)

/-- The list of pass-2 decisions for the records of `rs`, the first
record having ordinal `n`. -/
def decs (T : Table) (n : Nat) : List BamRec → List Bool
  | [] => []
  | r :: rs => dec2 T n r :: decs T (n + 1) rs

/-- Keep the elements of a list selected by a parallel mask. -/
def maskFilter : List BamRec → List Bool → List BamRec
  | [], _ => []
  | _, [] => []
  | r :: rs, b :: bs => if b then r :: maskFilter rs bs else maskFilter rs bs

/-- Accessor `s.getD j default`: the record at 0-based ordinal `j`. -/
def getRec (s : List BamRec) (j : Nat) : BamRec :=
  s.getD j default

/-- The pass-2 emission decision of the engine for the record at
ordinal `j` of the input stream. -/
def emitFlag (s : List BamRec) (j : Nat) : Bool :=
  (decs (pass1T s) 0 s).getD j false

/-! ## Spec-side notions used to state the claims -/

/-- The `(ordinal, quality-sum)` pairs of the clean records of `rs`
whose signature hashes to `hv`, in stream order; `n` is the ordinal of
the head of `rs`. -/
def candidates (n : Nat) (hv : Nat) : List BamRec → List Entry
  | [] => []
  | r :: rs =>
    if isClean r && (key_hash (make_key r) == hv) then (n, qsum r) :: candidates (n + 1) hv rs
    else candidates (n + 1) hv rs

/-- Pass 1's better-than rule: replace the incumbent only on a
strictly greater quality-sum. -/
def bestUpd : Option Entry → Entry → Option Entry
  | none, c => some c
  | some e, c => if c.2 > e.2 then some c else some e

/-- Lookup by hash value. -/
def lookupH (T : Table) (hv : Nat) : Option Entry :=
  (T.find? (fun p => key_hash p.1 == hv)).map Prod.snd

/-- Predicate: `key_hash` is collision-free over the signatures of the clean
records of `s` (the accepted-risk assumption of the digest policy). -/
def hashInjClean (s : List BamRec) : Bool :=
  ((s.filter (fun r => isClean r)).map make_key).all fun k =>
    ((s.filter (fun r => isClean r)).map make_key).all fun k2 =>
      (key_hash k != key_hash k2) || (k == k2)

/-- The signature hashes of the clean records of a stream, in order. -/
def cleanHashes (l : List BamRec) : List Nat :=
  (l.filter (fun r => isClean r)).map (fun r => key_hash (make_key r))

/-- Every record of the stream is either unmapped-by-tid or clean:
no secondary/supplementary/unmapped/QC-fail record carries a valid
reference id. -/
def noFlaggedMapped (s : List BamRec) : Bool :=
  s.all fun r => decide (r.tid < 0) || (r.flag &&& flagMask == 0)

/-! ## The fragment statistics of `print_frag_stats` -/

/-- Constant `FRAGMENT_BIN_SIZE`. -/
def FRAGMENT_BIN_SIZE : ℚ := 5

/-- The median loop of `print_frag_stats` (doopa.cc lines 270-280),
with exact rational arithmetic in place of `float`: `dist` is the
cumulative count *including* the current bin; on the first bin where
`dist ≥ half` the median is set to
`bin·BIN + ((half − dist) / count)·BIN`. -/
def medianLoop (half : ℚ) : List (Nat × Nat) → ℚ → ℚ → Bool → ℚ
  | [], _, med, _ => med
  | (bin, cnt) :: rest, dist, med, found =>
    let dist2 := dist + cnt
    if !found && (dist2 ≥ half) then
      medianLoop half rest dist2
        ((bin : ℚ) * FRAGMENT_BIN_SIZE + ((half - dist2) / (cnt : ℚ)) * FRAGMENT_BIN_SIZE) true
    else
      medianLoop half rest dist2 med found

/-- The median reported by `print_frag_stats` for a histogram (list of
`(bin index, count)` in ascending bin order, as iterated from the
`std::map`) with `total_fragments = N`. -/
def medianOfHist (hist : List (Nat × Nat)) (N : Nat) : ℚ :=
  medianLoop ((N : ℚ) / 2) hist 0 0 false

/-- Modelled from the spec: the claimed median formula — the first
bin (ascending) whose cumulative count reaches `N/2`, interpolated as
`bin_lower_bound + ((N/2 − cumulative_before_bin) / count_in_bin) · BIN_WIDTH`. -/
def medianSpec (half : ℚ) : List (Nat × Nat) → ℚ → ℚ
  | [], _ => 0
  | (bin, cnt) :: rest, before =>
    if before + cnt ≥ half then
      (bin : ℚ) * FRAGMENT_BIN_SIZE + ((half - before) / (cnt : ℚ)) * FRAGMENT_BIN_SIZE
    else medianSpec half rest (before + cnt)

/-- The mean of `print_frag_stats` (doopa.cc lines 270-281):
`Σ midpoint·count / N` with midpoint `bin·BIN + BIN/2`. -/
def meanOfHist (hist : List (Nat × Nat)) (N : Nat) : ℚ :=
  (hist.foldl (fun acc p => acc + ((p.1 : ℚ) * FRAGMENT_BIN_SIZE + FRAGMENT_BIN_SIZE / 2) * (p.2 : ℚ)) 0) / (N : ℚ)

/-- Accumulator `cstd` of `print_frag_stats` (doopa.cc lines 283-287):
`Σ count·(midpoint − mean)²`. -/
def cstdOfHist (hist : List (Nat × Nat)) (mean : ℚ) : ℚ :=
  hist.foldl (fun acc p => acc + (p.2 : ℚ) * (((p.1 : ℚ) * FRAGMENT_BIN_SIZE + FRAGMENT_BIN_SIZE / 2) - mean) ^ 2) 0

/-- The divisor of the standard-deviation computation
(doopa.cc line 288): `(float)total_fragments - 1.f`, computed
unconditionally. -/
def stdevDenom (N : Nat) : ℚ :=
  (N : ℚ) - 1

/-- The argument of `sqrt` on doopa.cc line 288:
`cstd / (total_fragments - 1)`. -/
def stdevSqArg (hist : List (Nat × Nat)) (N : Nat) : ℚ :=
  cstdOfHist hist (meanOfHist hist N) / stdevDenom N

/-! ## Basic table lemmas -/

theorem lookupT_eq_lookupH (T : Table) (k : chrposlen_t) :
    lookupT T k = lookupH T (key_hash k) := rfl

theorem lookupH_nil (hv : Nat) : lookupH [] hv = none := rfl

theorem lookupH_cons (p : chrposlen_t × Entry) (T : Table) (hv : Nat) :
    lookupH (p :: T) hv = if key_hash p.1 == hv then some p.2 else lookupH T hv := by
  by_cases h : key_hash p.1 == hv
  · simp [lookupH, List.find?_cons_of_pos, h]
  · simp only [Bool.not_eq_true] at h
    simp [lookupH, List.find?_cons_of_neg, h]

theorem lookupH_append_one (T : Table) (k : chrposlen_t) (e : Entry) (hv : Nat) :
    lookupH (T ++ [(k, e)]) hv =
      match lookupH T hv with
      | some e2 => some e2
      | none => if key_hash k == hv then some e else none := by
  induction T with
  | nil =>
    simp only [List.nil_append, lookupH_nil]
    rw [lookupH_cons]
    by_cases h : key_hash k == hv <;> simp [h, lookupH_nil]
  | cons p T ih =>
    simp only [List.cons_append]
    rw [lookupH_cons, lookupH_cons]
    by_cases h : key_hash p.1 == hv <;> simp [h, ih]

theorem lookupH_updateT (T : Table) (k : chrposlen_t) (e : Entry) (hv : Nat) :
    lookupH (updateT T k e) hv =
      if key_hash k == hv then (lookupH T hv).map (fun _ => e) else lookupH T hv := by
  induction T with
  | nil =>
    by_cases h : key_hash k == hv <;> simp [updateT, lookupH_nil, h]
  | cons p T ih =>
    by_cases hp : key_hash p.1 == hv
    · by_cases hk : key_equal_to p.1 k
      · have hkh : key_hash p.1 = key_hash k := by
          simpa [key_equal_to] using hk
        have : (key_hash k == hv) = true := by
          rw [← hkh]; exact hp
        simp [updateT, lookupH_cons, hp, hk, this]
      · have hkh : ¬ key_hash p.1 = key_hash k := by
          simpa [key_equal_to] using hk
        have hkv : ¬ (key_hash k == hv) = true := by
          intro hcon
          apply hkh
          rw [beq_iff_eq] at hp hcon
          rw [hp, hcon]
        simp only [updateT, List.map_cons] at *
        simp [lookupH_cons, hp, hk, hkv]
    · by_cases hk : key_equal_to p.1 k
      · have hkh : key_hash p.1 = key_hash k := by
          simpa [key_equal_to] using hk
        have hkv : ¬ (key_hash k == hv) = true := by
          rw [← hkh]; exact hp
        simp only [updateT, List.map_cons] at *
        simp [lookupH_cons, hp, hk, hkv, ih]
      · simp only [updateT, List.map_cons] at *
        simp [lookupH_cons, hp, hk, ih]

theorem isClean_false_of_tid (r : BamRec) (h : r.tid < 0) : isClean r = false := by
  simp [isClean, h]

theorem isClean_false_of_flag (r : BamRec) (h : r.flag &&& flagMask ≠ 0) : isClean r = false := by
  simp [isClean, h]

theorem isClean_true (r : BamRec) (h1 : ¬ r.tid < 0) (h2 : ¬ r.flag &&& flagMask ≠ 0) :
    isClean r = true := by
  simp only [Ne, not_not] at h2
  simp [isClean, h1, h2]

/-! ## Pass 1 computes the fold of `bestUpd` over the candidate list -/

theorem pass1_lookupH (rs : List BamRec) : ∀ n T d hv,
    lookupH ((pass1Go n T d rs).1) hv = (candidates n hv rs).foldl bestUpd (lookupH T hv) := by
  induction rs with
  | nil => intro n T d hv; simp [pass1Go, candidates]
  | cons r rs ih =>
    intro n T d hv
    by_cases ht : r.tid < 0
    · have hcl := isClean_false_of_tid r ht
      simp [pass1Go, ht, candidates, hcl, ih]
    · by_cases hf : r.flag &&& flagMask ≠ 0
      · have hcl := isClean_false_of_flag r hf
        simp [pass1Go, ht, hf, candidates, hcl, ih]
      · have hcl := isClean_true r ht hf
        by_cases hh : (key_hash (make_key r) == hv) = true
        · have hhv : key_hash (make_key r) = hv := by rwa [beq_iff_eq] at hh
          have hcand : candidates n hv (r :: rs) = (n, qsum r) :: candidates (n + 1) hv rs := by
            simp [candidates, hcl, hh]
          rcases hE : lookupT T (make_key r) with _ | e
          · have hE2 : lookupH T hv = none := by rw [← hhv, ← lookupT_eq_lookupH, hE]
            have hL : lookupH (T ++ [(make_key r, (n, qsum r))]) hv = some (n, qsum r) := by
              rw [lookupH_append_one, hE2]
              simp [hh]
            simp only [pass1Go, if_neg ht, if_neg hf, hE]
            rw [ih, hcand, List.foldl_cons, hE2, hL]
            rfl
          · have hE2 : lookupH T hv = some e := by rw [← hhv, ← lookupT_eq_lookupH, hE]
            by_cases hq : qsum r > e.2
            · have hL : lookupH (updateT T (make_key r) (n, qsum r)) hv = some (n, qsum r) := by
                rw [lookupH_updateT, if_pos hh, hE2]
                rfl
              simp only [pass1Go, if_neg ht, if_neg hf, hE, if_pos hq]
              rw [ih, hcand, List.foldl_cons, hE2, hL]
              simp [bestUpd, hq]
            · simp only [pass1Go, if_neg ht, if_neg hf, hE, if_neg hq]
              rw [ih, hcand, List.foldl_cons, hE2]
              simp [bestUpd, hq]
        · have hcand : candidates n hv (r :: rs) = candidates (n + 1) hv rs := by
            simp [candidates, hh]
          rcases hE : lookupT T (make_key r) with _ | e
          · have hL : lookupH (T ++ [(make_key r, (n, qsum r))]) hv = lookupH T hv := by
              rw [lookupH_append_one]
              rcases h2 : lookupH T hv with _ | e2
              · simp [hh]
              · rfl
            simp only [pass1Go, if_neg ht, if_neg hf, hE]
            rw [ih, hcand, hL]
          · by_cases hq : qsum r > e.2
            · have hL : lookupH (updateT T (make_key r) (n, qsum r)) hv = lookupH T hv := by
                rw [lookupH_updateT, if_neg (by simp [hh])]
              simp only [pass1Go, if_neg ht, if_neg hf, hE, if_pos hq]
              rw [ih, hcand, hL]
            · simp only [pass1Go, if_neg ht, if_neg hf, hE, if_neg hq]
              rw [ih, hcand]

/-! ## Properties of the candidate list -/

theorem getRec_cons_zero (r : BamRec) (rs : List BamRec) : getRec (r :: rs) 0 = r := rfl

theorem getRec_cons_succ (r : BamRec) (rs : List BamRec) (m : Nat) :
    getRec (r :: rs) (m + 1) = getRec rs m := rfl

theorem candidates_cons_clean (r : BamRec) (rs : List BamRec) (n hv : Nat)
    (hcl : isClean r = true) (hh : key_hash (make_key r) = hv) :
    candidates n hv (r :: rs) = (n, qsum r) :: candidates (n + 1) hv rs := by
  simp [candidates, hcl, hh]

theorem candidates_cons_skip (r : BamRec) (rs : List BamRec) (n hv : Nat)
    (h : isClean r = false ∨ key_hash (make_key r) ≠ hv) :
    candidates n hv (r :: rs) = candidates (n + 1) hv rs := by
  rcases h with h | h <;> simp [candidates, h]

theorem candidates_mem (rs : List BamRec) : ∀ n hv (c : Entry), c ∈ candidates n hv rs ↔
    ∃ m, m < rs.length ∧ c.1 = n + m ∧ isClean (getRec rs m) = true ∧
      key_hash (make_key (getRec rs m)) = hv ∧ c.2 = qsum (getRec rs m) := by
  induction rs with
  | nil => intro n hv c; simp [candidates]
  | cons r rs ih =>
    intro n hv c
    by_cases hcl : isClean r = true
    · by_cases hh : key_hash (make_key r) = hv
      · rw [candidates_cons_clean r rs n hv hcl hh]
        constructor
        · intro hc
          rcases List.mem_cons.mp hc with hc | hc
          · refine ⟨0, by simp, ?_, ?_, ?_, ?_⟩
            · simp [hc]
            · rwa [getRec_cons_zero]
            · rwa [getRec_cons_zero]
            · rw [hc, getRec_cons_zero]
          · rcases (ih (n + 1) hv c).mp hc with ⟨m, hm, h1, h2, h3, h4⟩
            refine ⟨m + 1, by simpa using hm, by omega, ?_, ?_, ?_⟩
            · rwa [getRec_cons_succ]
            · rwa [getRec_cons_succ]
            · rwa [getRec_cons_succ]
        · rintro ⟨m, hm, h1, h2, h3, h4⟩
          rcases m with _ | m
          · rw [getRec_cons_zero] at h4
            rw [Nat.add_zero] at h1
            have hc : c = (n, qsum r) := by
              rcases c with ⟨c1, c2⟩
              simp only at h1 h4
              rw [h1, h4]
            rw [hc]
            exact List.mem_cons_self _ _
          · rw [getRec_cons_succ] at h2 h3 h4
            refine List.mem_cons_of_mem _ ((ih (n + 1) hv c).mpr ⟨m, ?_, by omega, h2, h3, h4⟩)
            simpa using hm
      · rw [candidates_cons_skip r rs n hv (Or.inr hh)]
        rw [ih (n + 1) hv c]
        constructor
        · rintro ⟨m, hm, h1, h2, h3, h4⟩
          refine ⟨m + 1, by simpa using hm, by omega, ?_, ?_, ?_⟩
          · rwa [getRec_cons_succ]
          · rwa [getRec_cons_succ]
          · rwa [getRec_cons_succ]
        · rintro ⟨m, hm, h1, h2, h3, h4⟩
          rcases m with _ | m
          · rw [getRec_cons_zero] at h3
            exact absurd h3 hh
          · rw [getRec_cons_succ] at h2 h3 h4
            exact ⟨m, by simpa using hm, by omega, h2, h3, h4⟩
    · have hcl2 : isClean r = false := by simpa using hcl
      rw [candidates_cons_skip r rs n hv (Or.inl hcl2)]
      rw [ih (n + 1) hv c]
      constructor
      · rintro ⟨m, hm, h1, h2, h3, h4⟩
        refine ⟨m + 1, by simpa using hm, by omega, ?_, ?_, ?_⟩
        · rwa [getRec_cons_succ]
        · rwa [getRec_cons_succ]
        · rwa [getRec_cons_succ]
      · rintro ⟨m, hm, h1, h2, h3, h4⟩
        rcases m with _ | m
        · rw [getRec_cons_zero] at h2
          rw [h2] at hcl2
          exact absurd hcl2 (by simp)
        · rw [getRec_cons_succ] at h2 h3 h4
          exact ⟨m, by simpa using hm, by omega, h2, h3, h4⟩

theorem candidates_ge (rs : List BamRec) : ∀ n hv (c : Entry), c ∈ candidates n hv rs → n ≤ c.1 := by
  intro n hv c hc
  rcases (candidates_mem rs n hv c).mp hc with ⟨m, _, h1, _, _, _⟩
  omega

theorem candidates_pairwise (rs : List BamRec) : ∀ n hv,
    (candidates n hv rs).Pairwise (fun a b : Entry => a.1 < b.1) := by
  induction rs with
  | nil => intro n hv; simp [candidates]
  | cons r rs ih =>
    intro n hv
    by_cases hcl : isClean r = true
    · by_cases hh : key_hash (make_key r) = hv
      · rw [candidates_cons_clean r rs n hv hcl hh]
        refine List.Pairwise.cons ?_ (ih (n + 1) hv)
        intro c hcmem
        have := candidates_ge rs (n + 1) hv c hcmem
        simp only
        omega
      · rw [candidates_cons_skip r rs n hv (Or.inr hh)]
        exact ih (n + 1) hv
    · rw [candidates_cons_skip r rs n hv (Or.inl (by simpa using hcl))]
      exact ih (n + 1) hv

theorem candidates_nil_of_no_clean (rs : List BamRec) : ∀ n hv,
    (∀ r ∈ rs, isClean r = true → key_hash (make_key r) ≠ hv) →
    candidates n hv rs = [] := by
  induction rs with
  | nil => intro n hv _; rfl
  | cons r rs ih =>
    intro n hv h
    by_cases hcl : isClean r = true
    · rw [candidates_cons_skip r rs n hv (Or.inr (h r (by simp) hcl))]
      exact ih (n + 1) hv (fun r2 hr2 => h r2 (by simp [hr2]))
    · rw [candidates_cons_skip r rs n hv (Or.inl (by simpa using hcl))]
      exact ih (n + 1) hv (fun r2 hr2 => h r2 (by simp [hr2]))

/-! ## The fold of `bestUpd` selects the first best candidate -/

theorem bestUpd_some (e c : Entry) :
    bestUpd (some e) c = if c.2 > e.2 then some c else some e := rfl

theorem foldBest_some (cs : List Entry) : ∀ e : Entry, ∃ b : Entry,
    cs.foldl bestUpd (some e) = some b := by
  induction cs with
  | nil => intro e; exact ⟨e, rfl⟩
  | cons c cs ih =>
    intro e
    rw [List.foldl_cons, bestUpd_some]
    by_cases hq : c.2 > e.2
    · rw [if_pos hq]; exact ih c
    · rw [if_neg hq]; exact ih e

theorem foldBest (cs : List Entry) : ∀ e : Entry,
    (∀ c ∈ cs, e.1 < c.1) → cs.Pairwise (fun a b : Entry => a.1 < b.1) →
    ∃ b : Entry, cs.foldl bestUpd (some e) = some b ∧ (b = e ∨ b ∈ cs) ∧ e.2 ≤ b.2 ∧
      (∀ c ∈ cs, c.2 ≤ b.2) ∧ (b = e ∨ e.2 < b.2) ∧ (∀ c ∈ cs, c.2 = b.2 → b.1 ≤ c.1) := by
  induction cs with
  | nil =>
    intro e _ _
    exact ⟨e, rfl, Or.inl rfl, le_refl _, by simp, Or.inl rfl, by simp⟩
  | cons c cs ih =>
    intro e hmono hpair
    have hpt : cs.Pairwise (fun a b : Entry => a.1 < b.1) := List.Pairwise.of_cons hpair
    have hph : ∀ c2 ∈ cs, c.1 < c2.1 := fun c2 hc2 => List.rel_of_pairwise_cons hpair hc2
    by_cases hq : c.2 > e.2
    · have hstep : bestUpd (some e) c = some c := by rw [bestUpd_some, if_pos hq]
      rcases ih c hph hpt with ⟨b, hb, hmem, hle, hall, hstrict, hties⟩
      refine ⟨b, ?_, ?_, ?_, ?_, ?_, ?_⟩
      · rw [List.foldl_cons, hstep]; exact hb
      · rcases hmem with h | h
        · exact Or.inr (by simp [h])
        · exact Or.inr (by simp [h])
      · omega
      · intro c2 hc2
        rcases List.mem_cons.mp hc2 with h | h
        · rw [h]; exact hle
        · exact hall c2 h
      · exact Or.inr (by omega)
      · intro c2 hc2 hceq
        rcases List.mem_cons.mp hc2 with h | h
        · rcases hstrict with hbc | hlt
          · rw [hbc, h]
          · rw [h] at hceq; omega
        · exact hties c2 h hceq
    · have hstep : bestUpd (some e) c = some e := by rw [bestUpd_some, if_neg hq]
      have hmono2 : ∀ c2 ∈ cs, e.1 < c2.1 := fun c2 hc2 => hmono c2 (by simp [hc2])
      rcases ih e hmono2 hpt with ⟨b, hb, hmem, hle, hall, hstrict, hties⟩
      refine ⟨b, ?_, ?_, ?_, ?_, ?_, ?_⟩
      · rw [List.foldl_cons, hstep]; exact hb
      · rcases hmem with h | h
        · exact Or.inl h
        · exact Or.inr (by simp [h])
      · exact hle
      · intro c2 hc2
        rcases List.mem_cons.mp hc2 with h | h
        · rw [h]; omega
        · exact hall c2 h
      · exact hstrict
      · intro c2 hc2 hceq
        rcases List.mem_cons.mp hc2 with h | h
        · rcases hstrict with hbe | hlt
          · have hc1 : e.1 < c.1 := hmono c (by simp)
            rw [h, hbe]
            omega
          · rw [h] at hceq
            omega
        · exact hties c2 h hceq

theorem foldBest_none (cs : List Entry) (hpair : cs.Pairwise (fun a b : Entry => a.1 < b.1))
    (hne : cs ≠ []) :
    ∃ b : Entry, cs.foldl bestUpd none = some b ∧ b ∈ cs ∧
      (∀ c ∈ cs, c.2 ≤ b.2) ∧ (∀ c ∈ cs, c.2 = b.2 → b.1 ≤ c.1) := by
  match cs with
  | [] => exact absurd rfl hne
  | c :: cs =>
    have hpt : cs.Pairwise (fun a b : Entry => a.1 < b.1) := List.Pairwise.of_cons hpair
    have hph : ∀ c2 ∈ cs, c.1 < c2.1 := fun c2 hc2 => List.rel_of_pairwise_cons hpair hc2
    rcases foldBest cs c hph hpt with ⟨b, hb, hmem, hle, hall, hstrict, hties⟩
    refine ⟨b, ?_, ?_, ?_, ?_⟩
    · rw [List.foldl_cons]; exact hb
    · rcases hmem with h | h
      · simp [h]
      · simp [h]
    · intro c2 hc2
      rcases List.mem_cons.mp hc2 with h | h
      · rw [h]; exact hle
      · exact hall c2 h
    · intro c2 hc2 hceq
      rcases List.mem_cons.mp hc2 with h | h
      · rcases hstrict with hbc | hlt
        · rw [hbc, h]
        · rw [h] at hceq; omega
      · exact hties c2 h hceq

theorem foldBest_none_eq_none (cs : List Entry) (h : cs.foldl bestUpd none = none) :
    cs = [] := by
  match cs with
  | [] => rfl
  | c :: cs =>
    rw [List.foldl_cons, show bestUpd none c = some c from rfl] at h
    rcases foldBest_some cs c with ⟨b, hb⟩
    rw [hb] at h
    exact absurd h (by simp)

theorem fold_mem_some (cs : List Entry) : ∀ e b : Entry,
    cs.foldl bestUpd (some e) = some b → b = e ∨ b ∈ cs := by
  induction cs with
  | nil =>
    intro e b h
    simp only [List.foldl_nil, Option.some_inj] at h
    exact Or.inl h.symm
  | cons c cs ih =>
    intro e b h
    rw [List.foldl_cons, bestUpd_some] at h
    by_cases hq : c.2 > e.2
    · rw [if_pos hq] at h
      rcases ih c b h with h2 | h2
      · exact Or.inr (by simp [h2])
      · exact Or.inr (by simp [h2])
    · rw [if_neg hq] at h
      rcases ih e b h with h2 | h2
      · exact Or.inl h2
      · exact Or.inr (by simp [h2])

theorem fold_mem_of_none (cs : List Entry) (b : Entry)
    (h : cs.foldl bestUpd none = some b) : b ∈ cs := by
  match cs with
  | [] => exact absurd h (by simp)
  | c :: cs =>
    rw [List.foldl_cons, show bestUpd none c = some c from rfl] at h
    rcases fold_mem_some cs c b h with h2 | h2
    · simp [h2]
    · simp [h2]

/-! ## Pass-2 decisions -/

theorem decs_cons (T : Table) (n : Nat) (r : BamRec) (rs : List BamRec) :
    decs T n (r :: rs) = dec2 T n r :: decs T (n + 1) rs := rfl

theorem decs_length (T : Table) (rs : List BamRec) : ∀ n, (decs T n rs).length = rs.length := by
  induction rs with
  | nil => intro n; rfl
  | cons r rs ih => intro n; simp [decs_cons, ih]

theorem decs_getD (T : Table) (rs : List BamRec) : ∀ n m, m < rs.length →
    (decs T n rs).getD m false = dec2 T (n + m) (getRec rs m) := by
  induction rs with
  | nil => intro n m hm; simp at hm
  | cons r rs ih =>
    intro n m hm
    rcases m with _ | m
    · rw [decs_cons, List.getD_cons_zero, getRec_cons_zero, Nat.add_zero]
    · rw [decs_cons, List.getD_cons_succ, getRec_cons_succ, ih (n + 1) m (by simpa using hm)]
      congr 1
      omega

theorem dec2_tid_neg (T : Table) (n : Nat) (r : BamRec) (h : r.tid < 0) :
    dec2 T n r = true := by
  simp [dec2, h]

theorem dec2_mapped (T : Table) (n : Nat) (r : BamRec) (h : ¬ r.tid < 0) :
    dec2 T n r =
      ((qsum r == ((lookupT T (make_key r)).getD (0, 0)).2) &&
        (((lookupT T (make_key r)).getD (0, 0)).1 == n)) := by
  simp [dec2, h]

theorem getOrInsert_of_some (T : Table) (k : chrposlen_t) (e : Entry)
    (h : lookupT T k = some e) : getOrInsert T k = (T, e) := by
  simp [getOrInsert, h]

theorem getOrInsert_of_none (T : Table) (k : chrposlen_t)
    (h : lookupT T k = none) : getOrInsert T k = (T ++ [(k, (0, 0))], (0, 0)) := by
  simp [getOrInsert, h]

theorem getD_lookupT_append_default (T : Table) (k k2 : chrposlen_t) :
    (lookupT (T ++ [(k, (0, 0))]) k2).getD (0, 0) = (lookupT T k2).getD (0, 0) := by
  rw [lookupT_eq_lookupH, lookupT_eq_lookupH, lookupH_append_one]
  rcases h2 : lookupH T (key_hash k2) with _ | e
  · by_cases hk : (key_hash k == key_hash k2) = true
    · simp [hk]
    · simp [hk]
  · rfl

theorem dec2_append_default (T : Table) (k : chrposlen_t) (n : Nat) (r : BamRec) :
    dec2 (T ++ [(k, (0, 0))]) n r = dec2 T n r := by
  by_cases h : r.tid < 0
  · simp [dec2, h]
  · rw [dec2_mapped _ _ _ h, dec2_mapped _ _ _ h, getD_lookupT_append_default]

theorem decs_append_default (rs : List BamRec) : ∀ (T : Table) (k : chrposlen_t) (n : Nat),
    decs (T ++ [(k, (0, 0))]) n rs = decs T n rs := by
  induction rs with
  | nil => intro T k n; rfl
  | cons r rs ih =>
    intro T k n
    rw [decs_cons, decs_cons, dec2_append_default, ih]

theorem maskFilter_cons_true (r : BamRec) (rs : List BamRec) (bs : List Bool) :
    maskFilter (r :: rs) (true :: bs) = r :: maskFilter rs bs := rfl

theorem maskFilter_cons_false (r : BamRec) (rs : List BamRec) (bs : List Bool) :
    maskFilter (r :: rs) (false :: bs) = maskFilter rs bs := rfl

/-- Pass 2 emits exactly the records selected by `dec2` against the
incoming table, in order and unchanged. -/
theorem pass2_snd (rs : List BamRec) : ∀ n T, (pass2Go n T rs).2 = maskFilter rs (decs T n rs) := by
  induction rs with
  | nil => intro n T; rfl
  | cons r rs ih =>
    intro n T
    by_cases ht : r.tid < 0
    · have hd : dec2 T n r = true := dec2_tid_neg T n r ht
      rw [decs_cons, hd, maskFilter_cons_true]
      simp only [pass2Go, if_pos ht]
      rw [ih]
    · rw [decs_cons, dec2_mapped T n r ht]
      rcases hE : lookupT T (make_key r) with _ | e
      · have hgi := getOrInsert_of_none T (make_key r) hE
        simp only [pass2Go, if_neg ht, hgi]
        by_cases hcond : qsum r = ((0, 0) : Entry).2 ∧ ((0, 0) : Entry).1 = n
        · rw [if_pos hcond]
          have hb : ((qsum r == (Option.getD none ((0:Nat), (0:Nat))).2) &&
              ((Option.getD none ((0:Nat), (0:Nat))).1 == n)) = true := by
            simp only [Option.getD]
            rcases hcond with ⟨h1, h2⟩
            simp [h1, h2.symm]
          rw [hb, maskFilter_cons_true]
          simp only
          rw [ih, decs_append_default]
        · rw [if_neg hcond]
          have hb : ((qsum r == (Option.getD none ((0:Nat), (0:Nat))).2) &&
              ((Option.getD none ((0:Nat), (0:Nat))).1 == n)) = false := by
            simp only [Option.getD, Bool.and_eq_false_iff]
            by_cases h1 : qsum r = 0
            · right
              have h2 : ¬ (0 : Nat) = n := fun hn => hcond ⟨h1, hn⟩
              simpa using h2
            · left
              simpa using h1
          rw [hb, maskFilter_cons_false]
          rw [ih, decs_append_default]
      · have hgi := getOrInsert_of_some T (make_key r) e hE
        simp only [pass2Go, if_neg ht, hgi]
        by_cases hcond : qsum r = e.2 ∧ e.1 = n
        · rw [if_pos hcond]
          have hb : ((qsum r == (Option.getD (some e) ((0:Nat), (0:Nat))).2) &&
              ((Option.getD (some e) ((0:Nat), (0:Nat))).1 == n)) = true := by
            simp only [Option.getD]
            rcases hcond with ⟨h1, h2⟩
            simp [h1, h2]
          rw [hb, maskFilter_cons_true]
          simp only
          rw [ih]
        · rw [if_neg hcond]
          have hb : ((qsum r == (Option.getD (some e) ((0:Nat), (0:Nat))).2) &&
              ((Option.getD (some e) ((0:Nat), (0:Nat))).1 == n)) = false := by
            simp only [Option.getD, Bool.and_eq_false_iff]
            by_cases h1 : qsum r = e.2
            · right
              have h2 : ¬ e.1 = n := fun hn => hcond ⟨h1, hn⟩
              simpa using h2
            · left
              simpa using h1
          rw [hb, maskFilter_cons_false]
          rw [ih]

/-- If every mapped record's key is present in the table, pass 2
leaves the table untouched. -/
theorem pass2_table_stable (rs : List BamRec) : ∀ n T,
    (∀ r ∈ rs, ¬ r.tid < 0 → lookupT T (make_key r) ≠ none) →
    (pass2Go n T rs).1 = T := by
  induction rs with
  | nil => intro n T _; rfl
  | cons r rs ih =>
    intro n T h
    by_cases ht : r.tid < 0
    · simp only [pass2Go, if_pos ht]
      exact ih (n + 1) T (fun r2 hr2 => h r2 (by simp [hr2]))
    · rcases hE : lookupT T (make_key r) with _ | e
      · exact absurd hE (h r (by simp) ht)
      · have hgi := getOrInsert_of_some T (make_key r) e hE
        simp only [pass2Go, if_neg ht, hgi]
        by_cases hcond : qsum r = e.2 ∧ e.1 = n
        · rw [if_pos hcond]
          simp only
          exact ih (n + 1) T (fun r2 hr2 => h r2 (by simp [hr2]))
        · rw [if_neg hcond]
          exact ih (n + 1) T (fun r2 hr2 => h r2 (by simp [hr2]))

/-! ## Clean-hash lists and the duplicate counter -/

theorem cleanHashes_cons (r : BamRec) (l : List BamRec) :
    cleanHashes (r :: l) =
      if isClean r = true then key_hash (make_key r) :: cleanHashes l else cleanHashes l := by
  by_cases h : isClean r = true
  · simp [cleanHashes, List.filter_cons, h]
  · simp only [Bool.not_eq_true] at h
    simp [cleanHashes, List.filter_cons, h]

theorem mem_cleanHashes (l : List BamRec) (r : BamRec) (h : r ∈ l) (hc : isClean r = true) :
    key_hash (make_key r) ∈ cleanHashes l := by
  simp only [cleanHashes, List.mem_map]
  exact ⟨r, List.mem_filter.mpr ⟨h, hc⟩, rfl⟩

theorem mem_of_cleanHashes (l : List BamRec) (hv : Nat) (h : hv ∈ cleanHashes l) :
    ∃ r ∈ l, isClean r = true ∧ key_hash (make_key r) = hv := by
  simp only [cleanHashes, List.mem_map] at h
  rcases h with ⟨r, hr, hh⟩
  rcases List.mem_filter.mp hr with ⟨h1, h2⟩
  exact ⟨r, h1, h2, hh⟩

/-- Pass 1 counts no duplicate when the incoming table misses every
clean record's hash and the clean records have pairwise distinct
hashes. -/
theorem pass1_d_stable (rs : List BamRec) : ∀ n T d,
    (∀ r ∈ rs, isClean r = true → lookupH T (key_hash (make_key r)) = none) →
    (cleanHashes rs).Pairwise (fun a b => a ≠ b) →
    (pass1Go n T d rs).2 = d := by
  induction rs with
  | nil => intro n T d _ _; rfl
  | cons r rs ih =>
    intro n T d h hpair
    by_cases ht : r.tid < 0
    · have hcl := isClean_false_of_tid r ht
      rw [cleanHashes_cons, hcl] at hpair
      simp only [Bool.false_eq_true, if_neg (by simp : ¬ False)] at hpair
      simp only [pass1Go, if_pos ht]
      exact ih (n + 1) T d (fun r2 hr2 => h r2 (by simp [hr2])) hpair
    · by_cases hf : r.flag &&& flagMask ≠ 0
      · have hcl := isClean_false_of_flag r hf
        rw [cleanHashes_cons, hcl] at hpair
        simp only [Bool.false_eq_true, if_neg (by simp : ¬ False)] at hpair
        simp only [pass1Go, if_neg ht, if_pos hf]
        exact ih (n + 1) T d (fun r2 hr2 => h r2 (by simp [hr2])) hpair
      · have hcl := isClean_true r ht hf
        rw [cleanHashes_cons, hcl, if_pos rfl] at hpair
        have hpt := List.Pairwise.of_cons hpair
        have hph : ∀ hv ∈ cleanHashes rs, key_hash (make_key r) ≠ hv :=
          fun hv hhv => List.rel_of_pairwise_cons hpair hhv
        have hE : lookupT T (make_key r) = none := by
          rw [lookupT_eq_lookupH]
          exact h r (by simp) hcl
        simp only [pass1Go, if_neg ht, if_neg hf, hE]
        refine ih (n + 1) _ d ?_ hpt
        intro r2 hr2 hcl2
        rw [lookupH_append_one, h r2 (by simp [hr2]) hcl2]
        have hne : key_hash (make_key r) ≠ key_hash (make_key r2) :=
          hph (key_hash (make_key r2)) (mem_cleanHashes rs r2 hr2 hcl2)
        simp [hne]

/-! ## Suffix bookkeeping -/

theorem drop_cons_facts (s : List BamRec) (n : Nat) (r : BamRec) (rs : List BamRec)
    (h : s.drop n = r :: rs) : n < s.length ∧ getRec s n = r ∧ s.drop (n + 1) = rs := by
  have hlen : s.length - n = rs.length + 1 := by
    rw [← List.length_drop, h, List.length_cons]
  have hn : n < s.length := by omega
  have hd := List.drop_eq_getElem_cons hn
  rw [h] at hd
  have hg : s[n] = r := (List.cons.injEq _ _ _ _).mp hd.symm |>.1
  have hds : s.drop (n + 1) = rs := (List.cons.injEq _ _ _ _).mp hd.symm |>.2
  refine ⟨hn, ?_, hds⟩
  rw [getRec, List.getD_eq_getElem s default hn, hg]

/-! ## What pass 2 emits -/

theorem isClean_tid (r : BamRec) (h : isClean r = true) : ¬ r.tid < 0 := by
  simp only [isClean, Bool.and_eq_true, Bool.not_eq_true', decide_eq_false_iff_not] at h
  exact h.1

/-- The pass-1 table entry found for a clean record of the stream:
it exists, and it is the first best candidate of its hash class. -/
theorem pass1T_lookup_clean (s : List BamRec) (j : Nat) (hj : j < s.length)
    (hc : isClean (getRec s j) = true) :
    ∃ b : Entry, lookupH (pass1T s) (key_hash (make_key (getRec s j))) = some b ∧
      b ∈ candidates 0 (key_hash (make_key (getRec s j))) s ∧
      (∀ c ∈ candidates 0 (key_hash (make_key (getRec s j))) s, c.2 ≤ b.2) ∧
      (∀ c ∈ candidates 0 (key_hash (make_key (getRec s j))) s, c.2 = b.2 → b.1 ≤ c.1) := by
  have hL := pass1_lookupH s 0 [] 0 (key_hash (make_key (getRec s j)))
  rw [lookupH_nil] at hL
  have hmem : ((j, qsum (getRec s j)) : Entry) ∈
      candidates 0 (key_hash (make_key (getRec s j))) s :=
    (candidates_mem s 0 (key_hash (make_key (getRec s j))) _).mpr
      ⟨j, hj, by simp, hc, rfl, rfl⟩
  have hne : candidates 0 (key_hash (make_key (getRec s j))) s ≠ [] := by
    intro hnil
    rw [hnil] at hmem
    simp at hmem
  rcases foldBest_none _ (candidates_pairwise s 0 _) hne with ⟨b, hb, hbmem, hall, hties⟩
  refine ⟨b, ?_, hbmem, hall, hties⟩
  rw [pass1T, hL, hb]

/-- A clean record emitted by pass 2 is the stored winner of its hash
class: the table entry is exactly `(its ordinal, its quality-sum)`. -/
theorem dec2_clean_true (s : List BamRec) (n : Nat) (r : BamRec)
    (hn : n < s.length) (hr : getRec s n = r) (hcl : isClean r = true)
    (hd : dec2 (pass1T s) n r = true) :
    lookupH (pass1T s) (key_hash (make_key r)) = some (n, qsum r) := by
  have ht := isClean_tid r hcl
  rcases pass1T_lookup_clean s n hn (by rwa [hr]) with ⟨b, hb, hbmem, _, _⟩
  rw [hr] at hb
  rw [dec2_mapped _ _ _ ht, lookupT_eq_lookupH, hb] at hd
  simp only [Option.getD_some, Bool.and_eq_true, beq_iff_eq] at hd
  rw [hb]
  rcases b with ⟨b1, b2⟩
  simp only at hd
  rw [hd.1, hd.2]

/-- A flagged (not clean) record with a valid reference id is emitted
by pass 2 only when it is the very first record, has quality-sum zero,
and its signature hash is absent from the pass-1 table. -/
theorem dec2_flagged_true (s : List BamRec) (n : Nat) (r : BamRec)
    (hn : n < s.length) (hr : getRec s n = r)
    (ht : ¬ r.tid < 0) (hcl : isClean r = false)
    (hd : dec2 (pass1T s) n r = true) :
    qsum r = 0 ∧ n = 0 ∧ lookupH (pass1T s) (key_hash (make_key r)) = none := by
  rw [dec2_mapped _ _ _ ht, lookupT_eq_lookupH] at hd
  rcases hE : lookupH (pass1T s) (key_hash (make_key r)) with _ | b
  · rw [hE] at hd
    simp only [Option.getD_none, Bool.and_eq_true, beq_iff_eq] at hd
    exact ⟨hd.1, hd.2.symm, rfl⟩
  · exfalso
    rw [hE] at hd
    simp only [Option.getD_some, Bool.and_eq_true, beq_iff_eq] at hd
    have hL := pass1_lookupH s 0 [] 0 (key_hash (make_key r))
    rw [lookupH_nil] at hL
    rw [pass1T] at hE
    rw [hE] at hL
    have hbmem := fold_mem_of_none _ b hL.symm
    rcases (candidates_mem s 0 _ b).mp hbmem with ⟨m, hm, h1, h2, h3, h4⟩
    have hmn : m = n := by omega
    rw [hmn, hr] at h2
    rw [h2] at hcl
    exact absurd hcl (by simp)

/-- The emitted stream, viewed from the suffix of the input starting
at ordinal `n`. -/
def outFrom (s : List BamRec) (n : Nat) (rs : List BamRec) : List BamRec :=
  maskFilter rs (decs (pass1T s) n rs)

theorem dedup_eq_outFrom (s : List BamRec) : dedup s = outFrom s 0 s := by
  rw [dedup, outFrom, pass2_snd]

/-- Structure of the emitted stream: every emitted clean record owns
its table entry (ordinal ≥ `n`, quality-sum its own); emitted clean
records have pairwise distinct signature hashes; an emitted flagged
record can only sit at position 0 of the whole output with
quality-sum 0 and an absent table entry. -/
theorem out_spec (s : List BamRec) : ∀ (rs : List BamRec) (n : Nat), s.drop n = rs →
    (∀ r ∈ outFrom s n rs, isClean r = true →
        ∃ j, n ≤ j ∧ lookupH (pass1T s) (key_hash (make_key r)) = some (j, qsum r)) ∧
    (cleanHashes (outFrom s n rs)).Pairwise (fun a b => a ≠ b) ∧
    (∀ m, m < (outFrom s n rs).length →
        ¬ (getRec (outFrom s n rs) m).tid < 0 → isClean (getRec (outFrom s n rs) m) = false →
          qsum (getRec (outFrom s n rs) m) = 0 ∧ m = 0 ∧ n = 0 ∧
          lookupH (pass1T s) (key_hash (make_key (getRec (outFrom s n rs) m))) = none) := by
  intro rs
  induction rs with
  | nil =>
    intro n hdrop
    refine ⟨?_, ?_, ?_⟩
    · intro r hr
      simp [outFrom, decs, maskFilter] at hr
    · simp [outFrom, decs, maskFilter, cleanHashes]
    · intro m hm
      simp [outFrom, decs, maskFilter] at hm
  | cons r rs ih =>
    intro n hdrop
    obtain ⟨hn, hr, hdrop2⟩ := drop_cons_facts s n r rs hdrop
    have hIH := ih (n + 1) hdrop2
    cases hdec : dec2 (pass1T s) n r with
    | false =>
      have hout : outFrom s n (r :: rs) = outFrom s (n + 1) rs := by
        rw [outFrom, decs_cons, hdec, maskFilter_cons_false, outFrom]
      refine ⟨?_, ?_, ?_⟩
      · rw [hout]
        intro r2 hr2 hcl2
        rcases hIH.1 r2 hr2 hcl2 with ⟨j, hj, hl⟩
        exact ⟨j, by omega, hl⟩
      · rw [hout]
        exact hIH.2.1
      · rw [hout]
        intro m hm ht2 hcl2
        rcases hIH.2.2 m hm ht2 hcl2 with ⟨_, _, h3, _⟩
        exact absurd h3 (by omega)
    | true =>
      have hout : outFrom s n (r :: rs) = r :: outFrom s (n + 1) rs := by
        rw [outFrom, decs_cons, hdec, maskFilter_cons_true, outFrom]
      by_cases htid : r.tid < 0
      · have hclr := isClean_false_of_tid r htid
        refine ⟨?_, ?_, ?_⟩
        · rw [hout]
          intro r2 hr2 hcl2
          rcases List.mem_cons.mp hr2 with h | h
          · rw [h] at hcl2
            rw [hcl2] at hclr
            exact absurd hclr (by simp)
          · rcases hIH.1 r2 h hcl2 with ⟨j, hj, hl⟩
            exact ⟨j, by omega, hl⟩
        · rw [hout, cleanHashes_cons, hclr]
          simp only [Bool.false_eq_true, if_neg (by simp : ¬ False)]
          exact hIH.2.1
        · rw [hout]
          intro m hm ht2 hcl2
          rcases m with _ | m
          · rw [getRec_cons_zero] at ht2
            exact absurd htid ht2
          · rw [getRec_cons_succ] at ht2 hcl2 ⊢
            rcases hIH.2.2 m (by simpa using hm) ht2 hcl2 with ⟨_, _, h3, _⟩
            exact absurd h3 (by omega)
      · by_cases hcl : isClean r = true
        · have hW := dec2_clean_true s n r hn hr hcl hdec
          refine ⟨?_, ?_, ?_⟩
          · rw [hout]
            intro r2 hr2 hcl2
            rcases List.mem_cons.mp hr2 with h | h
            · rw [h]
              exact ⟨n, le_refl n, hW⟩
            · rcases hIH.1 r2 h hcl2 with ⟨j, hj, hl⟩
              exact ⟨j, by omega, hl⟩
          · rw [hout, cleanHashes_cons, hcl, if_pos rfl]
            refine List.Pairwise.cons ?_ hIH.2.1
            intro hv hhv hcontra
            rcases mem_of_cleanHashes _ hv hhv with ⟨r2, hr2, hcl2, hh2⟩
            rcases hIH.1 r2 hr2 hcl2 with ⟨j, hj, hl⟩
            rw [hh2, ← hcontra, hW] at hl
            have : n = j := by
              have := Option.some_inj.mp hl
              exact (Prod.mk.injEq _ _ _ _).mp this |>.1
            omega
          · rw [hout]
            intro m hm ht2 hcl2
            rcases m with _ | m
            · rw [getRec_cons_zero] at hcl2
              rw [hcl2] at hcl
              exact absurd hcl (by simp)
            · rw [getRec_cons_succ] at ht2 hcl2 ⊢
              rcases hIH.2.2 m (by simpa using hm) ht2 hcl2 with ⟨_, _, h3, _⟩
              exact absurd h3 (by omega)
        · have hclf : isClean r = false := by simpa using hcl
          have hF := dec2_flagged_true s n r hn hr htid hclf hdec
          refine ⟨?_, ?_, ?_⟩
          · rw [hout]
            intro r2 hr2 hcl2
            rcases List.mem_cons.mp hr2 with h | h
            · rw [h] at hcl2
              rw [hcl2] at hclf
              exact absurd hclf (by simp)
            · rcases hIH.1 r2 h hcl2 with ⟨j, hj, hl⟩
              exact ⟨j, by omega, hl⟩
          · rw [hout, cleanHashes_cons, hclf]
            simp only [Bool.false_eq_true, if_neg (by simp : ¬ False)]
            exact hIH.2.1
          · rw [hout]
            intro m hm ht2 hcl2
            rcases m with _ | m
            · rw [getRec_cons_zero] at ht2 hcl2 ⊢
              exact ⟨hF.1, rfl, hF.2.1, hF.2.2⟩
            · rw [getRec_cons_succ] at ht2 hcl2 ⊢
              rcases hIH.2.2 m (by simpa using hm) ht2 hcl2 with ⟨_, _, h3, _⟩
              exact absurd h3 (by omega)

/-! ## Idempotence machinery -/

theorem getRec_mem (l : List BamRec) (m : Nat) (hm : m < l.length) : getRec l m ∈ l := by
  rw [getRec, List.getD_eq_getElem l default hm]
  exact List.getElem_mem hm

/-- When the clean records of a stream have pairwise distinct hashes,
the candidate list of a clean record's hash is the singleton of that
record. -/
theorem cand_singleton (l : List BamRec) : ∀ n m,
    (cleanHashes l).Pairwise (fun a b => a ≠ b) →
    m < l.length → isClean (getRec l m) = true →
    candidates n (key_hash (make_key (getRec l m))) l = [(n + m, qsum (getRec l m))] := by
  induction l with
  | nil => intro n m _ hm; simp at hm
  | cons r l ih =>
    intro n m hpair hm hcl
    rcases m with _ | m
    · rw [getRec_cons_zero] at hcl ⊢
      rw [candidates_cons_clean r l n _ hcl rfl]
      rw [cleanHashes_cons, hcl, if_pos rfl] at hpair
      have hph : ∀ hv ∈ cleanHashes l, key_hash (make_key r) ≠ hv :=
        fun hv hhv => List.rel_of_pairwise_cons hpair hhv
      rw [candidates_nil_of_no_clean l (n + 1) _ ?_]
      · rw [Nat.add_zero]
      · intro r2 hr2 hcl2 hcon
        exact hph (key_hash (make_key r2)) (mem_cleanHashes l r2 hr2 hcl2) hcon.symm
    · rw [getRec_cons_succ] at hcl ⊢
      by_cases hclr : isClean r = true
      · rw [cleanHashes_cons, hclr, if_pos rfl] at hpair
        have hne : key_hash (make_key r) ≠ key_hash (make_key (getRec l m)) := by
          apply List.rel_of_pairwise_cons hpair
          exact mem_cleanHashes l (getRec l m) (getRec_mem l m (by simpa using hm)) hcl
        rw [candidates_cons_skip r l n _ (Or.inr hne)]
        rw [ih (n + 1) m (List.Pairwise.of_cons hpair) (by simpa using hm) hcl]
        have heq : (n + 1) + m = n + (m + 1) := by omega
        rw [heq]
      · have hclr2 : isClean r = false := by simpa using hclr
        rw [cleanHashes_cons, hclr2] at hpair
        simp only [Bool.false_eq_true, if_neg (by simp : ¬ False)] at hpair
        rw [candidates_cons_skip r l n _ (Or.inl hclr2)]
        rw [ih (n + 1) m hpair (by simpa using hm) hcl]
        have heq : (n + 1) + m = n + (m + 1) := by omega
        rw [heq]

theorem maskFilter_decs_all (T : Table) (l : List BamRec) : ∀ n,
    (∀ m, m < l.length → dec2 T (n + m) (getRec l m) = true) →
    maskFilter l (decs T n l) = l := by
  induction l with
  | nil => intro n _; rfl
  | cons r l ih =>
    intro n h
    have h0 : dec2 T n r = true := by
      have := h 0 (by simp)
      rwa [Nat.add_zero, getRec_cons_zero] at this
    rw [decs_cons, h0, maskFilter_cons_true, ih (n + 1) ?_]
    intro m hm
    have h2 := h (m + 1) (by simpa using hm)
    have heq : n + (m + 1) = (n + 1) + m := by omega
    rw [heq, getRec_cons_succ] at h2
    exact h2

/-- All pass-2 decisions of a second run over the first run's output
are positive. -/
theorem rerun_decs_true (s : List BamRec) : ∀ m, m < (outFrom s 0 s).length →
    dec2 (pass1T (outFrom s 0 s)) m (getRec (outFrom s 0 s) m) = true := by
  obtain ⟨hOA, hOB, hOC⟩ := out_spec s s 0 (List.drop_zero s)
  intro m hm
  by_cases htid : (getRec (outFrom s 0 s) m).tid < 0
  · exact dec2_tid_neg _ _ _ htid
  · by_cases hcl : isClean (getRec (outFrom s 0 s) m) = true
    · have hcand := cand_singleton (outFrom s 0 s) 0 m hOB hm hcl
      have hL := pass1_lookupH (outFrom s 0 s) 0 [] 0
        (key_hash (make_key (getRec (outFrom s 0 s) m)))
      rw [lookupH_nil, hcand, List.foldl_cons, List.foldl_nil] at hL
      rw [dec2_mapped _ _ _ htid, lookupT_eq_lookupH, pass1T, hL]
      simp [bestUpd]
    · have hF := hOC m hm htid (by simpa using hcl)
      obtain ⟨hq0, hm0, _, hnone⟩ := hF
      subst hm0
      have hcand : candidates 0 (key_hash (make_key (getRec (outFrom s 0 s) 0)))
          (outFrom s 0 s) = [] := by
        apply candidates_nil_of_no_clean
        intro r2 hr2 hcl2 hcon
        rcases hOA r2 hr2 hcl2 with ⟨j, _, hl⟩
        rw [hcon, hnone] at hl
        exact absurd hl (by simp)
      have hL := pass1_lookupH (outFrom s 0 s) 0 [] 0
        (key_hash (make_key (getRec (outFrom s 0 s) 0)))
      rw [lookupH_nil, hcand, List.foldl_nil] at hL
      rw [dec2_mapped _ _ _ htid, lookupT_eq_lookupH, pass1T, hL]
      simp [hq0]

/-- C9: the engine is idempotent: running the two-pass engine on the
record stream produced by a first run (same signature derivation and
hash/equality policy) counts zero duplicates in pass 1 and emits every
record of that stream unchanged, in order. -/
theorem c9_idempotent (s : List BamRec) :
    dedup (dedup s) = dedup s ∧ dupCount (dedup s) = 0 := by
  obtain ⟨hOA, hOB, hOC⟩ := out_spec s s 0 (List.drop_zero s)
  constructor
  · rw [dedup_eq_outFrom s, dedup, pass2_snd]
    refine maskFilter_decs_all _ _ 0 ?_
    intro m hm
    rw [Nat.zero_add]
    exact rerun_decs_true s m hm
  · rw [dedup_eq_outFrom s, dupCount]
    apply pass1_d_stable
    · intro r _ _
      exact lookupH_nil _
    · exact hOB

/-! ## Emission of single records -/

theorem emitFlag_eq (s : List BamRec) (j : Nat) (hj : j < s.length) :
    emitFlag s j = dec2 (pass1T s) j (getRec s j) := by
  rw [emitFlag, decs_getD _ _ 0 j hj, Nat.zero_add]

theorem hashInjClean_spec (s : List BamRec) (h : hashInjClean s = true) :
    ∀ r1 ∈ s, ∀ r2 ∈ s, isClean r1 = true → isClean r2 = true →
      key_hash (make_key r1) = key_hash (make_key r2) → make_key r1 = make_key r2 := by
  intro r1 h1 r2 h2 hc1 hc2 hh
  simp only [hashInjClean, List.all_eq_true, List.mem_map, List.mem_filter] at h
  have h3 := h (make_key r1) ⟨r1, ⟨h1, hc1⟩, rfl⟩ (make_key r2) ⟨r2, ⟨h2, hc2⟩, rfl⟩
  rcases (Bool.or_eq_true _ _).mp h3 with hne | heq
  · exact absurd hh (by simpa using hne)
  · simpa using heq

/-- C2: in pass 2, a clean mapped record (valid reference id, none of
the secondary/supplementary/unmapped/QC-fail bits) is emitted iff the
winner ordinal stored in the duplicate table for its recomputed
signature equals the record's 0-based ordinal in the second scan; the
stored quality-sum comparison of line 439 is redundant, so the
decision depends only on ordinal equality. -/
theorem c2_emit_iff_ordinal (s : List BamRec) (j : Nat) (hj : j < s.length)
    (hc : isClean (getRec s j) = true) :
    ∃ e : Entry, lookupT (pass1T s) (make_key (getRec s j)) = some e ∧
      (emitFlag s j = true ↔ e.1 = j) ∧
      dedup s = maskFilter s (decs (pass1T s) 0 s) := by
  rcases pass1T_lookup_clean s j hj hc with ⟨b, hb, hbmem, hall, hties⟩
  refine ⟨b, ?_, ?_, ?_⟩
  · rw [lookupT_eq_lookupH]; exact hb
  · rw [emitFlag_eq s j hj]
    have ht := isClean_tid _ hc
    rw [dec2_mapped _ _ _ ht, lookupT_eq_lookupH, hb]
    simp only [Option.getD_some, Bool.and_eq_true, beq_iff_eq]
    constructor
    · intro hx
      exact hx.2
    · intro h
      refine ⟨?_, h⟩
      rcases (candidates_mem s 0 _ b).mp hbmem with ⟨m, hm, h1, h2, h3, h4⟩
      have hmj : m = j := by omega
      rw [h4, hmj]
  · rw [dedup, pass2_snd]

/-- C1: assuming the digest policy is collision-free on the clean
records of the stream (the accepted-risk assumption of §4.2), the
duplicate table's entry for the signature of any clean record is
`(i, q)` where `i` is the ordinal of a clean record with the same
signature, `q` its quality-sum, `q` is the maximum quality-sum of the
signature class, ties resolved to the earliest ordinal; and pass 2
emits, among the class, exactly the record with ordinal `i`. -/
theorem c1_winner (s : List BamRec) (hinj : hashInjClean s = true) (j : Nat)
    (hj : j < s.length) (hc : isClean (getRec s j) = true) :
    ∃ i q, lookupT (pass1T s) (make_key (getRec s j)) = some (i, q) ∧
      (i < s.length ∧ isClean (getRec s i) = true ∧
        make_key (getRec s i) = make_key (getRec s j) ∧ q = qsum (getRec s i)) ∧
      (∀ j2, j2 < s.length → isClean (getRec s j2) = true →
        make_key (getRec s j2) = make_key (getRec s j) →
          qsum (getRec s j2) ≤ q ∧
          (qsum (getRec s j2) = q → i ≤ j2) ∧
          (emitFlag s j2 = true ↔ j2 = i)) ∧
      dedup s = maskFilter s (decs (pass1T s) 0 s) := by
  rcases pass1T_lookup_clean s j hj hc with ⟨b, hb, hbmem, hall, hties⟩
  rcases (candidates_mem s 0 _ b).mp hbmem with ⟨i0, hi0len, hbi, hci, hhi, hqi⟩
  have hbi0 : b.1 = i0 := by omega
  refine ⟨b.1, b.2, ?_, ?_, ?_, ?_⟩
  · rw [lookupT_eq_lookupH, hb]
  · refine ⟨by omega, ?_, ?_, ?_⟩
    · rw [hbi0]; exact hci
    · rw [hbi0]
      exact hashInjClean_spec s hinj (getRec s i0) (getRec_mem s i0 hi0len)
        (getRec s j) (getRec_mem s j hj) hci hc hhi
    · rw [hbi0]; exact hqi
  · intro j2 hj2 hc2 hk2
    have hh2 : key_hash (make_key (getRec s j2)) = key_hash (make_key (getRec s j)) := by
      rw [hk2]
    have hcmem : ((j2, qsum (getRec s j2)) : Entry) ∈
        candidates 0 (key_hash (make_key (getRec s j))) s :=
      (candidates_mem s 0 _ _).mpr ⟨j2, hj2, by simp, hc2, hh2, rfl⟩
    refine ⟨hall _ hcmem, fun hq => hties _ hcmem hq, ?_⟩
    rw [emitFlag_eq s j2 hj2]
    have ht2 := isClean_tid _ hc2
    rw [dec2_mapped _ _ _ ht2, lookupT_eq_lookupH, hh2, hb]
    simp only [Option.getD_some, Bool.and_eq_true, beq_iff_eq]
    constructor
    · intro hx
      exact hx.2.symm
    · intro h
      refine ⟨?_, h.symm⟩
      have hji : j2 = i0 := by omega
      rw [hji, hqi]
  · rw [dedup, pass2_snd]

/-! ## Concrete records used by counterexamples and witnesses -/

/-- A secondary alignment (flag `BAM_FSECONDARY`) with a valid
reference id and quality-sum 7. -/
def recSec : BamRec := ⟨0, 10, 256, [(4, 'M')], -1, 0, none, [7]⟩

/-- A clean mapped record. -/
def recA : BamRec := ⟨0, 10, 0, [(4, 'M')], -1, 0, none, [7]⟩

/-- A clean mapped record with the same signature as `recA` but a
higher quality-sum. -/
def recB : BamRec := ⟨0, 10, 0, [(4, 'M')], -1, 0, none, [9]⟩

/-- An unmapped record (`tid < 0`). -/
def recU : BamRec := ⟨-1, 0, 4, [], -1, 0, none, [5]⟩

/-- A paired record whose mate-unmapped flag (0x8) is set while its
mate reference id is valid — the common SAM encoding of a mapped read
with an unmapped mate placed at the same coordinates. -/
def recMateUnmapped : BamRec := ⟨0, 10, 9, [(4, 'M')], 1, 5, none, [30, 30, 30, 30]⟩

/-- An unpaired record: no valid mate reference id. -/
def recUnpaired : BamRec := ⟨0, 10, 0, [(4, 'M')], -1, 0, none, [30]⟩

/-- A paired mapped record with CIGAR `1S4M` carrying the mate-CIGAR
tag `MC:Z:4M`. -/
def rec10mc : BamRec := ⟨0, 10, 0, [(1, 'S'), (4, 'M')], 0, 3, some ['4', 'M'], [9]⟩

/-- The same record with the mate-CIGAR tag absent. -/
def rec10no : BamRec := ⟨0, 10, 0, [(1, 'S'), (4, 'M')], 0, 3, none, [9]⟩

/-- A paired mapped record with CIGAR `2S4M` carrying `MC:Z:4M`. -/
def rec10mc2 : BamRec := ⟨0, 10, 0, [(2, 'S'), (4, 'M')], 0, 3, some ['4', 'M'], [9]⟩

/-! ## C3 -/

/-- C3 counterexample: a secondary record (`BAM_FSECONDARY` set) with
a valid reference id is NOT emitted by pass 2 — the engine's pass-2
unconditional-emission path tests only `tid < 0`, so this record goes
through the signature filter (which inserts a default `(0,0)` entry)
and is dropped; it appears zero times in the output, not once. -/
theorem c3_counterexample :
    recSec.flag &&& BAM_FSECONDARY ≠ 0 ∧ recSec.flag &&& BAM_FUNMAP = 0 ∧
    dedup [recSec] = [] := by
  refine ⟨by decide, by decide, ?_⟩
  decide

/-- C3 amended: every record with an invalid reference id (`tid < 0`)
is emitted unconditionally by pass 2, unchanged and in its original
stream position (the output is the mask-filter of the input stream by
the pass-2 decisions, and the decision at such a record is `true`);
flagged records with `tid ≥ 0` instead pass through the signature
filter and may be dropped. -/
theorem c3_amended (s : List BamRec) (j : Nat) (hj : j < s.length)
    (ht : (getRec s j).tid < 0) :
    emitFlag s j = true ∧ dedup s = maskFilter s (decs (pass1T s) 0 s) := by
  refine ⟨?_, by rw [dedup, pass2_snd]⟩
  rw [emitFlag_eq s j hj]
  exact dec2_tid_neg _ _ _ ht

/-- Witness for the amended C3 at a concrete stream. -/
theorem c3_amended_witness :
    0 < (List.length [recU, recA]) ∧ (getRec [recU, recA] 0).tid < 0 ∧
    (emitFlag [recU, recA] 0 = true ∧
      dedup [recU, recA] = maskFilter [recU, recA] (decs (pass1T [recU, recA]) 0 [recU, recA])) :=
  ⟨by decide, by decide, c3_amended [recU, recA] 0 (by decide) (by decide)⟩

/-! ## C4 -/

/-- C4 counterexample: on the one-record stream `[recSec]` the
duplicate table is empty after pass 1, yet pass 2's `mp[key]` lookup
of the secondary record inserts a default entry, so the table after
pass 2 differs from its state at the end of pass 1. -/
theorem c4_counterexample :
    pass1T [recSec] = [] ∧ (pass2Go 0 (pass1T [recSec]) [recSec]).1 ≠ [] := by
  constructor
  · decide
  · decide

/-- C4 amended: pass-2 lookups never remove or modify an entry, and
when every record of the stream is either unmapped-by-tid or clean
(so that pass 1 inserted every signature pass 2 looks up), the table
after pass 2 is identical to its state at the end of pass 1.  (A
flagged record with `tid ≥ 0` may instead insert a default `(0,0)`
entry, as the counterexample shows.) -/
theorem c4_amended (s : List BamRec) (h : noFlaggedMapped s = true) :
    (pass2Go 0 (pass1T s) s).1 = pass1T s := by
  apply pass2_table_stable
  intro r hr htid
  have hcl : isClean r = true := by
    simp only [noFlaggedMapped, List.all_eq_true] at h
    rcases (Bool.or_eq_true _ _).mp (h r hr) with h1 | h2
    · exact absurd (by simpa using h1) htid
    · exact isClean_true r htid (fun hn => hn (by simpa using h2))
  rcases List.mem_iff_get.mp hr with ⟨⟨j, hjlen⟩, hget⟩
  have hgr : getRec s j = r := by
    rw [getRec, List.getD_eq_getElem s default hjlen, ← hget]
    rfl
  rcases pass1T_lookup_clean s j hjlen (by rwa [hgr]) with ⟨b, hb, _, _, _⟩
  rw [hgr] at hb
  rw [lookupT_eq_lookupH, hb]
  simp

/-- Witness for the amended C4 at a concrete stream. -/
theorem c4_amended_witness :
    noFlaggedMapped [recA, recU, recB] = true ∧
    (pass2Go 0 (pass1T [recA, recU, recB]) [recA, recU, recB]).1 = pass1T [recA, recU, recB] :=
  ⟨by decide, c4_amended [recA, recU, recB] (by decide)⟩

/-! ## C5 -/

/-- The spec's "sum of leading soft/hard clip run-lengths". -/
def leadClipSpec (cig : List (Nat × Char)) : Nat :=
  ((cig.takeWhile (fun p => p.2 == 'S' || p.2 == 'H')).map Prod.fst).sum

/-- The spec's "sum of trailing soft/hard clip run-lengths". -/
def trailClipSpec (cig : List (Nat × Char)) : Nat :=
  leadClipSpec cig.reverse

theorem startClips_eq_leadClipSpec (cig : List (Nat × Char)) :
    startClips cig = leadClipSpec cig := by
  induction cig with
  | nil => rfl
  | cons p rest ih =>
    rcases p with ⟨len, c⟩
    by_cases h : c = 'S' ∨ c = 'H'
    · have hb : (((len, c) : Nat × Char).2 == 'S' || ((len, c) : Nat × Char).2 == 'H') = true := by
        rcases h with h | h <;> simp [h]
      simp [startClips, h, leadClipSpec, List.takeWhile_cons, hb, ih]
    · have hb : (((len, c) : Nat × Char).2 == 'S' || ((len, c) : Nat × Char).2 == 'H') = false := by
        rcases not_or.mp h with ⟨h1, h2⟩
        simp [h1, h2]
      simp [startClips, h, leadClipSpec, List.takeWhile_cons, hb]

/-- C5: the primary unclipped-start is the leftmost position minus the
sum of leading soft/hard clip run-lengths plus one, and the primary
unclipped-end is the alignment end plus the sum of trailing soft/hard
clip run-lengths; concretely, CIGAR `10S90M` at position 100 gives
unclipped-start 91, and a trailing `5S` after `90M` extends the
unclipped-end by 5. -/
theorem c5_clip_math :
    (∀ b : BamRec, unclipped_start b = b.pos - leadClipSpec b.cigar + 1 ∧
        unclipped_end b = bam_endpos b + trailClipSpec b.cigar) ∧
    unclipped_start ⟨0, 100, 0, [(10, 'S'), (90, 'M')], -1, 0, none, []⟩ = 91 ∧
    unclipped_end ⟨0, 100, 0, [(90, 'M'), (5, 'S')], -1, 0, none, []⟩ =
      unclipped_end ⟨0, 100, 0, [(90, 'M')], -1, 0, none, []⟩ + 5 := by
  refine ⟨?_, by decide, by decide⟩
  intro b
  constructor
  · rw [unclipped_start, startClips_eq_leadClipSpec]
  · rw [unclipped_end, endClips, startClips_eq_leadClipSpec, trailClipSpec]

/-! ## C6 -/

/-- C6 counterexample: this record's mate-unmapped flag (0x8) is set,
so the claim requires zero mate fields, but `make_key` tests
`mtid >= 0` rather than the flag: the mate fields (packed in the high
word of the signature) are nonzero. -/
theorem c6_counterexample :
    recMateUnmapped.flag &&& 8 ≠ 0 ∧ (make_key recMateUnmapped).hi ≠ 0 := by
  decide

/-- C6 amended: the mate fields of the signature are zero exactly when
the record carries no valid mate reference id (`mtid < 0`, the BAM
encoding of "unpaired or mate information absent"), which is the test
the code performs. -/
theorem c6_amended (b : BamRec) (h : b.mtid < 0) :
    (make_key b).hi = 0 ∧
    ∃ chr1 start1 len1, make_key_fields b = (chr1, start1, len1, 0, 0, 0) := by
  have hfields : make_key_fields b =
      (b.tid, unclipped_start b, unclipped_end b - unclipped_start b, 0, 0, 0) := by
    rw [make_key_fields, if_neg (by omega : ¬ (0 : Int) ≤ b.mtid)]
  refine ⟨?_, ⟨_, _, _, hfields⟩⟩
  rw [make_key, hfields]
  rfl

/-- Witness for the amended C6 at a concrete record. -/
theorem c6_amended_witness :
    recUnpaired.mtid < 0 ∧
    ((make_key recUnpaired).hi = 0 ∧
      ∃ chr1 start1 len1, make_key_fields recUnpaired = (chr1, start1, len1, 0, 0, 0)) :=
  ⟨by decide, c6_amended recUnpaired (by decide)⟩

/-! ## C7 -/

/-- C7 (code bug): on the histogram `{bin 0 ↦ 2}` with `N = 2`, the
median loop of `print_frag_stats` yields `0 + ((1 − 2)/2)·5 = −5/2`:
it subtracts the cumulative count INCLUDING the current bin (`dist` is
incremented before the test), while the claimed formula — and the
code's own comment `L + ((n/2 − F) / f) · w` — subtracts only the
cumulative count of strictly earlier bins and yields `5/2`. -/
theorem c7_median_eval :
    medianOfHist [(0, 2)] 2 = -(5 / 2 : ℚ) ∧
    medianSpec ((2 : ℚ) / 2) [(0, 2)] 0 = (5 / 2 : ℚ) := by
  constructor
  · rw [medianOfHist, medianLoop]
    norm_num [medianLoop, FRAGMENT_BIN_SIZE]
  · rw [medianSpec]
    norm_num [FRAGMENT_BIN_SIZE]

/-! ## C8 -/

/-- C8 (code bug): the standard-deviation divisor
`(float)total_fragments − 1` of line 288 is computed unconditionally.
At `N = 1` (reachable: one confidently-paired fragment, histogram
`{bin 0 ↦ 1}`) it is zero, so the code divides by zero; at `N = 0` it
is `−1` and `sqrt(0 / −1)` is printed as the number `−0.0000`, not as
an "undefined" marker.  There is no undefined-reporting branch. -/
theorem c8_stdev_denom :
    stdevDenom 1 = 0 ∧ stdevDenom 0 = -1 ∧
    stdevSqArg [(0, 1)] 1 = cstdOfHist [(0, 1)] (meanOfHist [(0, 1)] 1) / 0 := by
  refine ⟨by norm_num [stdevDenom], by norm_num [stdevDenom], ?_⟩
  rw [stdevSqArg, stdevDenom]
  norm_num

/-! ## C10 -/

/-- C10 counterexample: the record `rec10mc` has CIGAR `1S4M` — a
leading clip — yet its signature with the mate-CIGAR tag present
agrees with the tag-absent signature in all three primary fields (and
in the whole first packed word): with a leading-clip total of exactly
1 and no trailing clip, dropping the clip adjustment and the 1-based
`+1` cancel. -/
theorem c10_counterexample :
    startClips rec10mc.cigar ≠ 0 ∧
    rec10mc.mc ≠ none ∧ rec10no.mc = none ∧
    rec10no = { rec10mc with mc := none } ∧
    (make_key_fields rec10mc).1 = (make_key_fields rec10no).1 ∧
    (make_key_fields rec10mc).2.1 = (make_key_fields rec10no).2.1 ∧
    (make_key_fields rec10mc).2.2.1 = (make_key_fields rec10no).2.2.1 ∧
    (make_key rec10mc).lo = (make_key rec10no).lo := by
  decide

/-- C10 amended: for a paired record (`mtid ≥ 0`) whose CIGAR has
leading or trailing clips, the signature computed with the mate-CIGAR
tag absent differs from the tag-present signature in its primary
`(start, length)` fields, EXCEPT in the single case where the
leading-clip total is exactly 1 and there is no trailing clip, where
the `−clip` and `+1` adjustments cancel and the fields coincide. -/
theorem c10_amended (b : BamRec) (cg : List Char) (hm : 0 ≤ b.mtid)
    (hclip : startClips b.cigar + endClips b.cigar ≠ 0)
    (hnot : ¬ (startClips b.cigar = 1 ∧ endClips b.cigar = 0)) :
    ¬ ((make_key_fields { b with mc := some cg }).2.1 =
         (make_key_fields { b with mc := none }).2.1 ∧
       (make_key_fields { b with mc := some cg }).2.2.1 =
         (make_key_fields { b with mc := none }).2.2.1) := by
  have hm1 : (0 : Int) ≤ ({ b with mc := some cg } : BamRec).mtid := hm
  have hm2 : (0 : Int) ≤ ({ b with mc := none } : BamRec).mtid := hm
  have ha1 : (make_key_fields { b with mc := some cg }).2.1 =
      b.pos - (startClips b.cigar : Int) + 1 := by
    rw [make_key_fields, if_pos hm1]
    rfl
  have ha2 : (make_key_fields { b with mc := some cg }).2.2.1 =
      (bam_endpos b + (endClips b.cigar : Int)) - (b.pos - (startClips b.cigar : Int) + 1) := by
    rw [make_key_fields, if_pos hm1]
    rfl
  have hb1 : (make_key_fields { b with mc := none }).2.1 = b.pos := by
    rw [make_key_fields, if_pos hm2]
  have hb2 : (make_key_fields { b with mc := none }).2.2.1 = bam_endpos b - b.pos := by
    rw [make_key_fields, if_pos hm2]
    rfl
  rintro ⟨h1, h2⟩
  rw [ha1, hb1] at h1
  rw [ha2, hb2] at h2
  omega

/-- Witness for the amended C10 at a concrete record (CIGAR `2S4M`,
mate CIGAR `4M`). -/
theorem c10_amended_witness :
    (0 : Int) ≤ rec10mc2.mtid ∧
    startClips rec10mc2.cigar + endClips rec10mc2.cigar ≠ 0 ∧
    ¬ (startClips rec10mc2.cigar = 1 ∧ endClips rec10mc2.cigar = 0) ∧
    ¬ ((make_key_fields { rec10mc2 with mc := some ['4', 'M'] }).2.1 =
         (make_key_fields { rec10mc2 with mc := none }).2.1 ∧
       (make_key_fields { rec10mc2 with mc := some ['4', 'M'] }).2.2.1 =
         (make_key_fields { rec10mc2 with mc := none }).2.2.1) :=
  ⟨by decide, by decide, by decide,
    c10_amended rec10mc2 ['4', 'M'] (by decide) (by decide) (by decide)⟩

/-- Witness for C2 at a concrete stream: two clean records with the
same signature, quality-sums 7 and 9. -/
theorem c2_emit_iff_ordinal_witness :
    0 < (List.length [recA, recB]) ∧ isClean (getRec [recA, recB] 0) = true ∧
    (∃ e : Entry, lookupT (pass1T [recA, recB]) (make_key (getRec [recA, recB] 0)) = some e ∧
      (emitFlag [recA, recB] 0 = true ↔ e.1 = 0) ∧
      dedup [recA, recB] = maskFilter [recA, recB] (decs (pass1T [recA, recB]) 0 [recA, recB])) :=
  ⟨by decide, by decide, c2_emit_iff_ordinal [recA, recB] 0 (by decide) (by decide)⟩

/-- Witness for C1 at a concrete stream: two clean records with the
same signature, quality-sums 7 and 9 (the hash-injectivity hypothesis
holds because the two clean signatures are equal). -/
theorem c1_winner_witness :
    hashInjClean [recA, recB] = true ∧
    0 < (List.length [recA, recB]) ∧
    isClean (getRec [recA, recB] 0) = true ∧
    (∃ i q, lookupT (pass1T [recA, recB]) (make_key (getRec [recA, recB] 0)) =
        some (i, q) ∧
      (i < (List.length [recA, recB]) ∧ isClean (getRec [recA, recB] i) = true ∧
        make_key (getRec [recA, recB] i) = make_key (getRec [recA, recB] 0) ∧
        q = qsum (getRec [recA, recB] i)) ∧
      (∀ j2, j2 < (List.length [recA, recB]) →
        isClean (getRec [recA, recB] j2) = true →
        make_key (getRec [recA, recB] j2) = make_key (getRec [recA, recB] 0) →
          qsum (getRec [recA, recB] j2) ≤ q ∧
          (qsum (getRec [recA, recB] j2) = q → i ≤ j2) ∧
          (emitFlag [recA, recB] j2 = true ↔ j2 = i)) ∧
      dedup [recA, recB] =
        maskFilter [recA, recB] (decs (pass1T [recA, recB]) 0 [recA, recB])) := by
  have hinj : hashInjClean [recA, recB] = true := by
    have hfm : (([recA, recB].filter (fun r => isClean r)).map make_key) =
        [make_key recA, make_key recA] := by decide
    rw [hashInjClean, hfm]
    simp
  exact ⟨hinj, by decide, by decide,
    c1_winner [recA, recB] hinj 0 (by decide) (by decide)⟩
